import Mathlib

/-!
Shallow embedding of the Virtual Planner server core (server.js, the
"Admin Override" revision): access gate, corpus and citation-index
loading, keyword relevance scoring, budgeted context assembly, citation
rewriting, and the admin toggle.

Strings are modelled as `List Char` (`Str`), with the ASCII case model
used by the server (`toLowerCase` on ASCII letters).  Filesystem reads
appear as explicit inputs (a directory listing, a raw side-file text);
process environment values (admin key, runtime access flag) appear as
explicit arguments.  Fractional relevance scores are multiples of 0.25,
so they are carried in quarter units as `Nat` (`score` below is four
times the JavaScript score); the comparator `(a, b) => b.score - a.score`
orders exactly as the quarter units do.
-/

namespace VirtualPlanner

abbrev Str := List Char

/-- ASCII lower-casing of one character, as `String.prototype.toLowerCase`
acts on ASCII input. -/
def toLowerChar (c : Char) : Char :=
  if 'A' ≤ c ∧ c ≤ 'Z' then Char.ofNat (c.toNat + 32) else c

def lowerStr (s : Str) : Str := s.map toLowerChar

/-- Whitespace recognised by `String.prototype.trim` (ASCII fragment). -/
def isSpaceC (c : Char) : Bool := c = ' ' || c = '\t' || c = '\n' || c = '\r'

def trimStr (s : Str) : Str :=
  ((s.dropWhile isSpaceC).reverse.dropWhile isSpaceC).reverse

def isDigitC (c : Char) : Bool := '0' ≤ c && c ≤ '9'

def isLowerC (c : Char) : Bool := 'a' ≤ c && c ≤ 'z'

def isUpperC (c : Char) : Bool := 'A' ≤ c && c ≤ 'Z'

def isAlnumC (c : Char) : Bool := isLowerC c || isUpperC c || isDigitC c

/-- A word character in the sense of the JavaScript regex classes
`\w` / `\b`: ASCII alphanumeric or underscore. -/
def isWordChar (c : Char) : Bool := isAlnumC c || c = '_'

/-- A character kept by the query tokenizer: the split pattern is
`/[^a-z0-9]+/i` applied to the already lower-cased question, so token
characters are exactly `[a-z0-9]`. -/
def tokenChar (c : Char) : Bool := isLowerC c || isDigitC c

/-- Splitting on runs of non-token characters, discarding empty pieces
(`q.split(/[^a-z0-9]+/i).filter(Boolean)`). -/
def splitTokGo (cur : Str) : Str → List Str
  | [] => if cur.isEmpty then [] else [cur.reverse]
  | c :: rest =>
    if tokenChar c then splitTokGo (c :: cur) rest
    else if cur.isEmpty then splitTokGo [] rest
    else cur.reverse :: splitTokGo [] rest

def splitTokens (s : Str) : List Str := splitTokGo [] s

/-- Deduplication keeping first occurrences (`Array.from(new Set(...))`). -/
def dedupGo (seen : List Str) : List Str → List Str
  | [] => []
  | t :: rest => if t ∈ seen then dedupGo seen rest else t :: dedupGo (t :: seen) rest

/-- The deduplicated lower-cased query tokens of `sliceByKeywords`. -/
def queryTerms (question : Str) : List Str :=
  dedupGo [] (splitTokens (lowerStr question))

def prevOk : Option Char → Bool
  | none => true
  | some c => !isWordChar c

def afterOk (t s : Str) : Bool :=
  match s.drop t.length with
  | [] => true
  | c :: _ => !isWordChar c

/-- Count of whole-word occurrences of `t`, walking the text with the
previous character as state.  This counts every position where `t`
occurs flanked by word boundaries; since `t` is non-empty and consists
of word characters only, two such occurrences can never overlap, so the
count agrees with the number of non-overlapping matches found by the
global regex `new RegExp("\\b" + t + "\\b", "g")`. -/
def countWWGo (t : Str) : Option Char → Str → Nat
  | _, [] => 0
  | prev, c :: rest =>
    (if prevOk prev && t.isPrefixOf (c :: rest) && afterOk t (c :: rest) then 1 else 0)
    + countWWGo t (some c) rest

def countWW (t text : Str) : Nat := countWWGo t none text

/-- Model of `String.prototype.includes`: `b` occurs as a contiguous substring. -/
def isSubstrB (b : Str) : Str → Bool
  | [] => b.isEmpty
  | c :: rest => b.isPrefixOf (c :: rest) || isSubstrB b rest

/-- The fixed domain bonus terms of `sliceByKeywords`. -/
def bonusTerms : List Str :=
  ["use".data, "permitted".data, "special".data, "parking".data,
   "definition".data, "district".data, "table".data]

/-- One document's score in quarter units: each whole-word hit of a
query term of length at least 3 is worth 4, each bonus term occurring
as a substring of the lower-cased text is worth 1 (0.25 in the source). -/
def scoreDoc4 (terms : List Str) (text : Str) : Nat :=
  let lower := lowerStr text
  let hits := terms.foldl (fun acc t => if t.length < 3 then acc else acc + countWW t lower) 0
  let bonus := bonusTerms.foldl (fun acc b => acc + (if isSubstrB b lower then 1 else 0)) 0
  4 * hits + bonus

structure Scored where
  file : Str
  text : Str
  score : Nat
deriving DecidableEq

/-- Insertion step of a stable descending sort: the new element (which
precedes the list elements in the original enumeration) goes before the
first element whose score does not exceed it.  `Array.prototype.sort`
with comparator `(a, b) => b.score - a.score` is stable (ECMAScript
2019), and the stable descending order is unique, so this models it. -/
def insertDesc (x : Scored) : List Scored → List Scored
  | [] => [x]
  | y :: ys => if y.score ≤ x.score then x :: y :: ys else y :: insertDesc x ys

def sortDesc : List Scored → List Scored
  | [] => []
  | x :: xs => insertDesc x (sortDesc xs)

/-- Scoring and ordering phase of `sliceByKeywords`: the corpus list is
`Object.entries(allFilesMap)` in enumeration order. -/
def sliceScored (corpus : List (Str × Str)) (question : Str) : List Scored :=
  let terms := queryTerms question
  sortDesc (corpus.map fun p => ⟨p.1, p.2, scoreDoc4 terms p.2⟩)

/-- One appended block: `--- file ---\n` + trimmed text + `\n`. -/
def blockOf (s : Scored) : Str :=
  "--- ".data ++ s.file ++ " ---\n".data ++ trimStr s.text ++ "\n".data

/-- Assembly loop of `sliceByKeywords`: before each append the running
total of raw document text lengths is compared with the budget. -/
def assembleGo (maxChars : Nat) : List Scored → Nat → List Str
  | [], _ => []
  | s :: rest, total =>
    if maxChars ≤ total then []
    else blockOf s :: assembleGo maxChars rest (total + s.text.length)

/-- Model of `Array.prototype.join("\n")`. -/
def joinNL : List Str → Str
  | [] => []
  | [b] => b
  | b :: rest => b ++ '\n' :: joinNL rest

def sliceByKeywords (corpus : List (Str × Str)) (question : Str) (maxChars : Nat) : Str :=
  joinNL (assembleGo maxChars (sliceScored corpus question) 0)

/-- One tenant configuration record from `cities.json`.  The JavaScript
field `end` is a Lean keyword, hence the guillemets.  Window bounds are
modelled as parsed timestamps (`Option Int`), absent or empty ISO
strings being `none`. -/
structure CityCfg where
  token : Str
  start : Option Int
  «end» : Option Int
  planner : Str
deriving DecidableEq

/-- Model of `cities[city] || null`: exact key lookup in the configuration map. -/
def getCityConfig (cities : List (Str × CityCfg)) (city : Str) : Option CityCfg :=
  (cities.find? fun p => decide (p.1 = city)).map (·.2)

def isWithinWindow (now : Int) (startT endT : Option Int) : Bool :=
  match startT, endT with
  | some a, some b => decide (a ≤ now) && decide (now ≤ b)
  | _, _ => true

inductive GateResult where
  | unknownCity
  | closed
  | unauthorized
  | pass (city planner : Str)
deriving DecidableEq

/-- The gate middleware.  `unknownCity` is the 404 outcome,
`closed` the 403 `ServiceSuspended` outcome (`sendClosed`),
`unauthorized` the 401 `InvalidToken` outcome.
The source binds `cityRaw = city.toLowerCase().trim()` and
`tokenQ = token.trim()` once; they are inlined here. -/
def gate (cities : List (Str × CityCfg)) (runtimeAccessEnabled : Bool)
    (cityQ tokenQ : Str) (now : Int) : GateResult :=
  match getCityConfig cities (trimStr (lowerStr cityQ)) with
  | none => .unknownCity
  | some cfg =>
    if !runtimeAccessEnabled then .closed
    else if trimStr tokenQ = [] ∨ trimStr tokenQ ≠ cfg.token then .unauthorized
    else if !isWithinWindow now cfg.start cfg.«end» then .closed
    else .pass (trimStr (lowerStr cityQ)) cfg.planner

/-- Model of `adminAuth`: authorized iff the configured key is non-empty and the
presented key equals it exactly (`if (!ADMIN_KEY || key !== ADMIN_KEY)`). -/
def adminAuth (adminKey key : Str) : Bool :=
  if adminKey = [] ∨ key ≠ adminKey then false else true

inductive ToggleResult where
  | unauthorized
  | ok (enabled : Bool)
deriving DecidableEq

/-- The `/admin/toggle` route: guarded by `adminAuth`; on success the
process-wide flag is set to the requested boolean, otherwise it is left
unchanged and a 401 is returned. -/
def adminToggle (adminKey key : Str) (flag desired : Bool) : Bool × ToggleResult :=
  if adminAuth adminKey key then (desired, .ok desired) else (flag, .unauthorized)

/-- Model of `f.toLowerCase().endsWith(".txt")`. -/
def endsWithTxtCI (f : Str) : Bool := ".txt".data.isSuffixOf (lowerStr f)

/-- Model of `loadAll`: the directory listing is an explicit input, `none`
standing for a missing or unreadable directory (the `catch` branch);
`readF` is `read`, which itself returns `""` on failure. -/
def loadAll (listing : Option (List Str)) (readF : Str → Str) : List (Str × Str) :=
  match listing with
  | none => []
  | some files => (files.filter endsWithTxtCI).map fun f => (f, readF f)

structure CiteEntry where
  article : Str
  title : Str
deriving DecidableEq

/-- Model of `String.prototype.split(sep)`: every separator splits, empty pieces
are kept, and the result is never empty. -/
def splitChar (sep : Char) : Str → List Str
  | [] => [[]]
  | c :: rest =>
    match splitChar sep rest with
    | [] => [[]]
    | h :: t => if c = sep then [] :: h :: t else (c :: h) :: t

/-- Model of `raw.split(/\r?\n/)`: a line break is `\n` optionally preceded by
`\r`; a lone `\r` does not break a line. -/
def splitLines : Str → List Str
  | [] => [[]]
  | '\n' :: rest => [] :: splitLines rest
  | '\r' :: '\n' :: rest => [] :: splitLines rest
  | c :: rest =>
    match splitLines rest with
    | [] => [[]]
    | h :: t => (c :: h) :: t

/-- Model of `Map.prototype.set`: overwrite the value at an existing key, else
append the binding. -/
def setEntry (m : List (Str × CiteEntry)) (k : Str) (v : CiteEntry) : List (Str × CiteEntry) :=
  if m.any fun p => decide (p.1 = k) then
    m.map fun p => if p.1 = k then (k, v) else p
  else m ++ [(k, v)]

/-- One line of `index.csv`: split on commas, trim each field, skip rows
with fewer than three fields or whose first field does not end in the
document-file suffix. -/
def parseRow (m : List (Str × CiteEntry)) (line : Str) : List (Str × CiteEntry) :=
  let cols := (splitChar ',' line).map trimStr
  if cols.length < 3 then m
  else
    let file := cols.getD 0 []
    let article := cols.getD 1 []
    let title := cols.getD 2 []
    if !endsWithTxtCI file then m
    else setEntry m file ⟨article, title⟩

/-- Model of `loadIndex`: `raw` is what `read` returned for `index.csv` (so `""`
when the side-file is missing). -/
def loadIndex (raw : Str) : List (Str × CiteEntry) :=
  if trimStr raw = [] then []
  else ((splitLines raw).filter fun l => !l.isEmpty).foldl parseRow []

/-- Model of `Map.prototype.get` on the association list built by `setEntry`
(keys are unique, so the first match is the binding). -/
def getEntry (m : List (Str × CiteEntry)) (k : Str) : Option CiteEntry :=
  (m.find? fun p => decide (p.1 = k)).map (·.2)

/-- Model of `f.replace(/\.txt$/i, "")`. -/
def stripTxt (f : Str) : Str :=
  if endsWithTxtCI f then f.take (f.length - 4) else f

/-- Rendering of a found index entry:
`(a ? "Article " + a : "Article") + " — " + t`, trimmed. -/
def renderMeta (e : CiteEntry) : Str :=
  let aLabel := if e.article = [] then "Article".data else "Article ".data ++ e.article
  trimStr (aLabel ++ " — ".data ++ e.title)

/-- Replacement for one captured marker content `f`:
`index.get(f) || index.get(f.trim())`, else the suffix-stripped name. -/
def lookupCite (index : List (Str × CiteEntry)) (f : Str) : Str :=
  match getEntry index f with
  | some m => renderMeta m
  | none =>
    match getEntry index (trimStr f) with
    | some m => renderMeta m
    | none => stripTxt f

/-- Split at the first `]`, returning the characters before it and the
remainder after it. -/
def findClose : Str → Option (Str × Str)
  | [] => none
  | c :: rest =>
    if c = ']' then some ([], rest)
    else
      match findClose rest with
      | some (content, after) => some (c :: content, after)
      | none => none

/-- The capture group `([^\]]+\.txt)` accepts a bracket-free content
that ends in the literal `.txt` and has at least one character before
it. -/
def validContent (f : Str) : Bool := ".txt".data.isSuffixOf f && decide (5 ≤ f.length)

/-- Left-to-right, non-overlapping scan of
`text.replace(/\[([^\]]+\.txt)\]/g, ...)`.  At `[` the candidate content
runs to the first `]` (the class `[^\]]` cannot cross one); an accepted
match is replaced and scanning resumes after it, a rejected `[` is
emitted and scanning resumes at the next character.  The fuel argument
only bounds the recursion and is always called with at least the text
length, which suffices because each step consumes at least one
character. -/
def rewriteFuel (index : List (Str × CiteEntry)) : Nat → Str → Str
  | 0, s => s
  | _ + 1, [] => []
  | fuel + 1, c :: rest =>
    if c = '[' then
      match findClose rest with
      | some (content, after) =>
        if validContent content then lookupCite index content ++ rewriteFuel index fuel after
        else c :: rewriteFuel index fuel rest
      | none => c :: rest
    else c :: rewriteFuel index fuel rest

/-- Model of `prettyCitations`, with the tenant's citation index passed in (the
source reloads it from disk on each call). -/
def prettyCitations (index : List (Str × CiteEntry)) (text : Str) : Str :=
  rewriteFuel index text.length text

/-- Decidable scan for the presence of a citation marker, mirroring the
places where the replace regex can fire. -/
def containsMarkerB : Str → Bool
  | [] => false
  | c :: rest =>
    if c = '[' then
      match findClose rest with
      | some (content, _) => validContent content || containsMarkerB rest
      | none => false
    else containsMarkerB rest

/-! Specification-side restatements of the scoring algorithm, written
from the spec's wording rather than from the loop structure of the
source: occurrences are counted over explicit positions, and the
aggregate is a sum over the filtered token list. -/

/-- Whole-word occurrence of `t` at position `i` of `s`, with the flank
class being the regex word characters. -/
def wwAtFrom (t : Str) (prev : Option Char) (s : Str) (i : Nat) : Bool :=
  prevOk (match i with | 0 => prev | j + 1 => (s.drop j).head?)
  && t.isPrefixOf (s.drop i) && afterOk t (s.drop i)

def wholeWordCount (t s : Str) : Nat :=
  (List.range s.length).countP (wwAtFrom t none s)

/-- The spec's score (quarter units) with the amended boundary class:
word characters (alphanumeric or underscore). -/
def specScore4 (question text : Str) : Nat :=
  let lower := lowerStr text
  4 * (((queryTerms question).filter fun t => decide (3 ≤ t.length)).map
        fun t => wholeWordCount t lower).sum
  + (bonusTerms.filter fun b => isSubstrB b lower).length

def claimPrevOk : Option Char → Bool
  | none => true
  | some c => !isAlnumC c

def claimAfterOk (t s : Str) : Bool :=
  match s.drop t.length with
  | [] => true
  | c :: _ => !isAlnumC c

/-- Whole-word occurrence as literally claimed: a match not immediately
preceded or followed by an alphanumeric character. -/
def claimWwAt (t s : Str) (i : Nat) : Bool :=
  claimPrevOk (match i with | 0 => none | j + 1 => (s.drop j).head?)
  && t.isPrefixOf (s.drop i) && claimAfterOk t (s.drop i)

def claimWordCount (t s : Str) : Nat := (List.range s.length).countP (claimWwAt t s)

/-- The claimed score formula (quarter units), with boundaries read as
"alphanumeric" exactly as the claim states them. -/
def claimScore4 (question text : Str) : Nat :=
  let lower := lowerStr text
  4 * (((queryTerms question).filter fun t => decide (3 ≤ t.length)).map
        fun t => claimWordCount t lower).sum
  + (bonusTerms.filter fun b => isSubstrB b lower).length

/-! ## Gate lemmas -/

/-- Once the tenant is resolved, the gate is the three-way cascade of
kill switch, token check and window check. -/
theorem gate_eq_of_some {cities : List (Str × CityCfg)} {cfg : CityCfg}
    (enabled : Bool) (cityQ tokenQ : Str) (now : Int)
    (h : getCityConfig cities (trimStr (lowerStr cityQ)) = some cfg) :
    gate cities enabled cityQ tokenQ now =
      (if !enabled then .closed
       else if trimStr tokenQ = [] ∨ trimStr tokenQ ≠ cfg.token then .unauthorized
       else if !isWithinWindow now cfg.start cfg.«end» then .closed
       else .pass (trimStr (lowerStr cityQ)) cfg.planner) := by
  unfold gate
  rw [h]

/-- C1: for every configured tenant, when the process-wide runtime
access flag is disabled the gate fails closed (`ServiceSuspended`)
regardless of the presented token, and — the kill switch being checked
before token verification — the response of a disabled service does not
depend on the presented token (nor on the time) at all. -/
theorem C1_kill_switch_precedes_token :
    (∀ (cities : List (Str × CityCfg)) (cityQ tokenQ : Str) (now : Int),
      (getCityConfig cities (trimStr (lowerStr cityQ))).isSome = true →
      gate cities false cityQ tokenQ now = .closed) ∧
    (∀ (cities : List (Str × CityCfg)) (cityQ tok1 tok2 : Str) (now1 now2 : Int),
      gate cities false cityQ tok1 now1 = gate cities false cityQ tok2 now2) := by
  constructor
  · intro cities cityQ tokenQ now h
    obtain ⟨cfg, hcfg⟩ := Option.isSome_iff_exists.mp h
    rw [gate_eq_of_some false cityQ tokenQ now hcfg]
    simp
  · intro cities cityQ tok1 tok2 now1 now2
    unfold gate
    cases getCityConfig cities (trimStr (lowerStr cityQ)) <;> simp

theorem C1_witness :
    (getCityConfig [("c".data, ⟨"abc".data, none, none, "p".data⟩)]
        (trimStr (lowerStr "c".data))).isSome = true ∧
    gate [("c".data, ⟨"abc".data, none, none, "p".data⟩)] false "c".data "abc".data 0
      = GateResult.closed :=
  ⟨by decide,
   C1_kill_switch_precedes_token.1 [("c".data, ⟨"abc".data, none, none, "p".data⟩)]
     "c".data "abc".data 0 (by decide)⟩

/-- C2 fails as stated: the gate trims the presented token before
comparing, so the presented token `" abc "` — which is not exactly equal
to the configured token `"abc"` — passes the gate instead of failing
with `InvalidToken`. -/
theorem C2_counterexample :
    " abc ".data ≠ "abc".data ∧
    gate [("c".data, ⟨"abc".data, none, none, "p".data⟩)] true "c".data " abc ".data 0
      = GateResult.pass "c".data "p".data := by
  constructor
  · decide
  · decide

/-- C2 amended: the gate compares the *trimmed* presented token; every
presented token whose trimmed value is empty or differs (case-sensitive,
exact) from the configured token fails with `InvalidToken`; in
particular, for a tenant whose configured token is the empty string, no
presented token ever passes. -/
theorem C2_amended_trimmed_token :
    (∀ (cities : List (Str × CityCfg)) (cityQ tokenQ : Str) (now : Int) (cfg : CityCfg),
      getCityConfig cities (trimStr (lowerStr cityQ)) = some cfg →
      (trimStr tokenQ = [] ∨ trimStr tokenQ ≠ cfg.token) →
      gate cities true cityQ tokenQ now = .unauthorized) ∧
    (∀ (cities : List (Str × CityCfg)) (cityQ tokenQ : Str) (now : Int) (cfg : CityCfg),
      getCityConfig cities (trimStr (lowerStr cityQ)) = some cfg →
      cfg.token = [] →
      gate cities true cityQ tokenQ now = .unauthorized) := by
  have main : ∀ (cities : List (Str × CityCfg)) (cityQ tokenQ : Str) (now : Int) (cfg : CityCfg),
      getCityConfig cities (trimStr (lowerStr cityQ)) = some cfg →
      (trimStr tokenQ = [] ∨ trimStr tokenQ ≠ cfg.token) →
      gate cities true cityQ tokenQ now = .unauthorized := by
    intro cities cityQ tokenQ now cfg hcfg h
    rw [gate_eq_of_some true cityQ tokenQ now hcfg]
    simp only [Bool.not_true, Bool.false_eq_true, if_false]
    rw [if_pos h]
  refine ⟨main, ?_⟩
  intro cities cityQ tokenQ now cfg hcfg htok
  apply main cities cityQ tokenQ now cfg hcfg
  by_cases h : trimStr tokenQ = []
  · exact Or.inl h
  · exact Or.inr (by rw [htok]; exact h)

theorem C2_witness :
    gate [("c".data, ⟨"abc".data, none, none, "p".data⟩)] true "c".data "x".data 0
      = GateResult.unauthorized :=
  C2_amended_trimmed_token.1 [("c".data, ⟨"abc".data, none, none, "p".data⟩)]
    "c".data "x".data 0 ⟨"abc".data, none, none, "p".data⟩ (by decide)
    (Or.inr (by decide))

/-- C5 fails as stated: tenant resolution lower-cases the *request* and
then looks it up exactly among the configured keys, so a configured key
containing an upper-case letter is never resolved — here the request
`"Alpha"` is even byte-identical (hence case-insensitively equal) to the
configured key `"Alpha"`, yet the gate answers `UnknownTenant`. -/
theorem C5_counterexample :
    lowerStr "Alpha".data = lowerStr "Alpha".data ∧
    gate [("Alpha".data, ⟨"t".data, none, none, "p".data⟩)] true "Alpha".data "t".data 0
      = GateResult.unknownCity := by
  constructor
  · rfl
  · decide

/-- C5 amended: resolution lower-cases and trims the request identifier
and requires an exact match with a configured key, so it is
case-insensitive in the *request* only for configured keys that are
already lower-case (and trimmed): for such a key, any request identifier
equal to it up to case resolves, and the gate never answers
`UnknownTenant`. -/
theorem C5_amended_lowercase_keys_resolve :
    ∀ (cities : List (Str × CityCfg)) (k : Str) (cfg : CityCfg)
      (cityQ tokenQ : Str) (enabled : Bool) (now : Int),
      (k, cfg) ∈ cities → lowerStr k = k → trimStr k = k →
      lowerStr cityQ = lowerStr k →
      gate cities enabled cityQ tokenQ now ≠ .unknownCity := by
  intro cities k cfg cityQ tokenQ enabled now hmem hlow htrim hci
  have hkey : trimStr (lowerStr cityQ) = k := by rw [hci, hlow, htrim]
  have hsome : (cities.find? fun p => decide (p.1 = k)).isSome := by
    rw [List.find?_isSome]
    exact ⟨(k, cfg), hmem, by simp⟩
  obtain ⟨e, he⟩ := Option.isSome_iff_exists.mp hsome
  have hcfg : getCityConfig cities (trimStr (lowerStr cityQ)) = some e.2 := by
    rw [hkey]
    unfold getCityConfig
    rw [he]
    rfl
  rw [gate_eq_of_some enabled cityQ tokenQ now hcfg]
  split
  · simp
  · split
    · simp
    · split <;> simp

theorem C5_witness :
    gate [("alpha".data, ⟨"t".data, none, none, "p".data⟩)] true "ALPHA".data "t".data 0
      ≠ GateResult.unknownCity :=
  C5_amended_lowercase_keys_resolve [("alpha".data, ⟨"t".data, none, none, "p".data⟩)]
    "alpha".data ⟨"t".data, none, none, "p".data⟩ "ALPHA".data "t".data true 0
    (by decide) (by decide) (by decide) (by decide)

/-- C8: a tenant with no configured window passes the gate at every
timestamp given a correct (non-empty) token; a configured window is
inclusive at both bounds; and a timestamp strictly outside the window
makes the gate fail closed (`ServiceSuspended`). -/
theorem C8_window_semantics :
    (∀ (cities : List (Str × CityCfg)) (cityQ tokenQ : Str) (now : Int) (cfg : CityCfg),
      getCityConfig cities (trimStr (lowerStr cityQ)) = some cfg →
      cfg.start = none → cfg.«end» = none →
      cfg.token ≠ [] → trimStr tokenQ = cfg.token →
      gate cities true cityQ tokenQ now = .pass (trimStr (lowerStr cityQ)) cfg.planner) ∧
    (∀ (cities : List (Str × CityCfg)) (cityQ tokenQ : Str) (now : Int) (cfg : CityCfg) (a b : Int),
      getCityConfig cities (trimStr (lowerStr cityQ)) = some cfg →
      cfg.start = some a → cfg.«end» = some b → a ≤ b →
      cfg.token ≠ [] → trimStr tokenQ = cfg.token →
      (now = a ∨ now = b) →
      gate cities true cityQ tokenQ now = .pass (trimStr (lowerStr cityQ)) cfg.planner) ∧
    (∀ (cities : List (Str × CityCfg)) (cityQ tokenQ : Str) (now : Int) (cfg : CityCfg) (a b : Int),
      getCityConfig cities (trimStr (lowerStr cityQ)) = some cfg →
      cfg.start = some a → cfg.«end» = some b →
      cfg.token ≠ [] → trimStr tokenQ = cfg.token →
      (now < a ∨ b < now) →
      gate cities true cityQ tokenQ now = .closed) := by
  refine ⟨?_, ?_, ?_⟩
  · intro cities cityQ tokenQ now cfg hcfg hs he hne htok
    rw [gate_eq_of_some true cityQ tokenQ now hcfg]
    rw [if_neg (by simp)]
    rw [if_neg (by rw [htok]; simp [hne])]
    rw [hs, he]
    simp [isWithinWindow]
  · intro cities cityQ tokenQ now cfg a b hcfg hs he hab hne htok hnow
    rw [gate_eq_of_some true cityQ tokenQ now hcfg]
    rw [if_neg (by simp)]
    rw [if_neg (by rw [htok]; simp [hne])]
    rw [hs, he]
    have hw : isWithinWindow now (some a) (some b) = true := by
      simp only [isWithinWindow, Bool.and_eq_true, decide_eq_true_eq]
      omega
    rw [hw]
    simp
  · intro cities cityQ tokenQ now cfg a b hcfg hs he hne htok hnow
    rw [gate_eq_of_some true cityQ tokenQ now hcfg]
    rw [if_neg (by simp)]
    rw [if_neg (by rw [htok]; simp [hne])]
    rw [hs, he]
    have hw : isWithinWindow now (some a) (some b) = false := by
      simp only [isWithinWindow]
      rcases hnow with h | h
      · rw [decide_eq_false (by omega : ¬ a ≤ now)]
        rfl
      · rw [decide_eq_false (by omega : ¬ now ≤ b)]
        simp
    rw [hw]
    simp

theorem C8_witness :
    gate [("c".data, ⟨"t".data, none, none, "p".data⟩)] true "c".data "t".data 12345
        = GateResult.pass "c".data "p".data ∧
    gate [("c".data, ⟨"t".data, some 10, some 20, "p".data⟩)] true "c".data "t".data 10
        = GateResult.pass "c".data "p".data ∧
    gate [("c".data, ⟨"t".data, some 10, some 20, "p".data⟩)] true "c".data "t".data 21
        = GateResult.closed :=
  ⟨C8_window_semantics.1 _ "c".data "t".data 12345 ⟨"t".data, none, none, "p".data⟩
      (by decide) rfl rfl (by decide) (by decide),
   C8_window_semantics.2.1 _ "c".data "t".data 10 ⟨"t".data, some 10, some 20, "p".data⟩
      10 20 (by decide) rfl rfl (by decide) (by decide) (by decide) (Or.inl rfl),
   C8_window_semantics.2.2 _ "c".data "t".data 21 ⟨"t".data, some 10, some 20, "p".data⟩
      10 20 (by decide) rfl rfl (by decide) (by decide) (Or.inr (by decide))⟩

/-- C10: with the operator credential configured as the empty string,
`adminAuth` rejects every request — including one presenting the empty
key, which plain string equality would accept — so the toggle never
changes the runtime access flag: the admin interface fails closed. -/
theorem C10_empty_admin_key_fails_closed :
    ∀ (key : Str) (flag desired : Bool),
      adminToggle [] key flag desired = (flag, ToggleResult.unauthorized) := by
  intro key flag desired
  unfold adminToggle adminAuth
  rw [if_pos (Or.inl rfl)]
  simp

/-! ## Context assembly -/

/-- Generalisation of the budget property over the running total. -/
theorem assembleGo_spec (maxChars : Nat) :
    ∀ (docs : List Scored) (total : Nat),
      ∃ n, n ≤ docs.length ∧
        assembleGo maxChars docs total = (docs.map blockOf).take n ∧
        (∀ j, j < n → total + ((docs.map fun d => d.text.length).take j).sum < maxChars) ∧
        (n < docs.length → maxChars ≤ total + ((docs.map fun d => d.text.length).take n).sum) := by
  intro docs
  induction docs with
  | nil =>
    intro total
    exact ⟨0, by simp [assembleGo]⟩
  | cons d rest ih =>
    intro total
    by_cases h : maxChars ≤ total
    · refine ⟨0, by simp, by simp [assembleGo, if_pos h], by omega, ?_⟩
      intro _
      simpa using h
    · obtain ⟨n, hn, heq, hlt, hge⟩ := ih (total + d.text.length)
      refine ⟨n + 1, by simpa using hn, ?_, ?_, ?_⟩
      · rw [assembleGo, if_neg h, heq]
        simp
      · intro j hj
        match j with
        | 0 => simpa using lt_of_not_le h
        | j' + 1 =>
          have := hlt j' (by omega)
          simp only [List.map_cons, List.take_succ_cons, List.sum_cons]
          omega
      · intro hlen
        simp only [List.length_cons] at hlen
        have := hge (by omega)
        simp only [List.map_cons, List.take_succ_cons, List.sum_cons]
        omega

/-- C4: the assembler checks the running total of raw document text
lengths (headers and delimiters excluded) before each append; the
output is a prefix of the full block list — the block that crosses the
budget is appended whole, never truncated — and the cut happens exactly
at the first point where the total reaches the budget. -/
theorem C4_budget_check_before_append :
    ∀ (docs : List Scored) (maxChars : Nat),
      ∃ n, n ≤ docs.length ∧
        assembleGo maxChars docs 0 = (docs.map blockOf).take n ∧
        (∀ j, j < n → ((docs.map fun d => d.text.length).take j).sum < maxChars) ∧
        (n < docs.length → maxChars ≤ ((docs.map fun d => d.text.length).take n).sum) := by
  intro docs maxChars
  obtain ⟨n, h1, h2, h3, h4⟩ := assembleGo_spec maxChars docs 0
  exact ⟨n, h1, h2, fun j hj => by simpa using h3 j hj, fun h => by simpa using h4 h⟩

theorem C4_witness :
    (∃ n, n ≤ ([⟨"a.txt".data, List.replicate 20 'x', 0⟩,
                ⟨"b.txt".data, List.replicate 20 'y', 0⟩] : List Scored).length ∧
      assembleGo 10 [⟨"a.txt".data, List.replicate 20 'x', 0⟩,
                     ⟨"b.txt".data, List.replicate 20 'y', 0⟩] 0
        = (([⟨"a.txt".data, List.replicate 20 'x', 0⟩,
             ⟨"b.txt".data, List.replicate 20 'y', 0⟩] : List Scored).map blockOf).take n ∧
      (∀ j, j < n →
        ((([⟨"a.txt".data, List.replicate 20 'x', 0⟩,
            ⟨"b.txt".data, List.replicate 20 'y', 0⟩] : List Scored).map
              fun d => d.text.length).take j).sum < 10) ∧
      (n < ([⟨"a.txt".data, List.replicate 20 'x', 0⟩,
             ⟨"b.txt".data, List.replicate 20 'y', 0⟩] : List Scored).length →
        10 ≤ ((([⟨"a.txt".data, List.replicate 20 'x', 0⟩,
                 ⟨"b.txt".data, List.replicate 20 'y', 0⟩] : List Scored).map
                   fun d => d.text.length).take n).sum)) ∧
    assembleGo 10 [⟨"a.txt".data, List.replicate 20 'x', 0⟩,
                   ⟨"b.txt".data, List.replicate 20 'y', 0⟩] 0
      = [blockOf ⟨"a.txt".data, List.replicate 20 'x', 0⟩] :=
  ⟨C4_budget_check_before_append
      [⟨"a.txt".data, List.replicate 20 'x', 0⟩, ⟨"b.txt".data, List.replicate 20 'y', 0⟩] 10,
   by decide⟩

/-! ## Corpus and citation-index loading -/

/-- A binding produced by `Map.set` is the new binding or an old one. -/
theorem mem_setEntry {m : List (Str × CiteEntry)} {k : Str} {v : CiteEntry}
    {p : Str × CiteEntry} (h : p ∈ setEntry m k v) : p = (k, v) ∨ p ∈ m := by
  unfold setEntry at h
  split at h
  · obtain ⟨q, hq, hqe⟩ := List.mem_map.mp h
    by_cases hk : q.1 = k
    · rw [if_pos hk] at hqe
      exact Or.inl hqe.symm
    · rw [if_neg hk] at hqe
      exact Or.inr (hqe ▸ hq)
  · rcases List.mem_append.mp h with h' | h'
    · exact Or.inr h'
    · exact Or.inl (List.mem_singleton.mp h')

/-- A well-formed provenance for one index binding: the line has at
least three comma-separated fields, the first (trimmed) field is the key
and carries the document-file suffix, and the entry is fields two and
three. -/
def GoodRow (line : Str) (p : Str × CiteEntry) : Prop :=
  3 ≤ ((splitChar ',' line).map trimStr).length ∧
  ((splitChar ',' line).map trimStr).getD 0 [] = p.1 ∧
  endsWithTxtCI p.1 = true ∧
  p.2 = ⟨((splitChar ',' line).map trimStr).getD 1 [],
         ((splitChar ',' line).map trimStr).getD 2 []⟩

theorem mem_parseRow {m : List (Str × CiteEntry)} {line : Str} {p : Str × CiteEntry}
    (h : p ∈ parseRow m line) : p ∈ m ∨ GoodRow line p := by
  simp only [parseRow] at h
  split at h
  · exact Or.inl h
  · rename_i hlen
    split at h
    · exact Or.inl h
    · rename_i hsfx
      rcases mem_setEntry h with h' | h'
      · refine Or.inr ⟨by omega, ?_, ?_, ?_⟩
        · rw [h']
        · rw [h']
          simpa using hsfx
        · rw [h']
      · exact Or.inl h'

theorem mem_foldl_parseRow :
    ∀ (lines : List Str) (m : List (Str × CiteEntry)) (p : Str × CiteEntry),
      p ∈ lines.foldl parseRow m → p ∈ m ∨ ∃ line ∈ lines, GoodRow line p := by
  intro lines
  induction lines with
  | nil => intro m p h; exact Or.inl h
  | cons l ls ih =>
    intro m p h
    rw [List.foldl_cons] at h
    rcases ih (parseRow m l) p h with h' | h'
    · rcases mem_parseRow h' with h'' | h''
      · exact Or.inl h''
      · exact Or.inr ⟨l, List.mem_cons_self _ _, h''⟩
    · obtain ⟨line, hline, hg⟩ := h'
      exact Or.inr ⟨line, List.mem_cons_of_mem _ hline, hg⟩

/-- C9: loading is total and degrades to empty data — a missing or
unreadable corpus directory yields an empty mapping and only files with
the document-file suffix are included; a missing citation side-file
(read as the empty string) yields an empty mapping, and every binding of
a loaded index stems from a line with at least three fields whose first
field bears the suffix — malformed rows contribute nothing. -/
theorem C9_loading_degrades :
    (∀ readF : Str → Str, loadAll none readF = []) ∧
    (∀ (listing : Option (List Str)) (readF : Str → Str) (f t : Str),
      (f, t) ∈ loadAll listing readF → endsWithTxtCI f = true) ∧
    (∀ raw : Str, trimStr raw = [] → loadIndex raw = []) ∧
    (∀ (raw k : Str) (e : CiteEntry), (k, e) ∈ loadIndex raw →
      endsWithTxtCI k = true ∧
      ∃ line ∈ (splitLines raw).filter (fun l => !l.isEmpty), GoodRow line (k, e)) := by
  refine ⟨fun _ => rfl, ?_, ?_, ?_⟩
  · intro listing readF f t h
    match listing with
    | none => cases h
    | some files =>
      simp only [loadAll, List.mem_map] at h
      obtain ⟨g, hg, hge⟩ := h
      obtain ⟨rfl, -⟩ := Prod.mk.injEq .. ▸ hge
      exact (List.mem_filter.mp hg).2
  · intro raw h
    unfold loadIndex
    rw [if_pos h]
  · intro raw k e h
    unfold loadIndex at h
    split at h
    · cases h
    · rcases mem_foldl_parseRow _ _ _ h with h' | h'
      · cases h'
      · obtain ⟨line, hline, hg⟩ := h'
        exact ⟨hg.2.2.1, line, hline, hg⟩

theorem C9_witness :
    loadAll none (fun _ => []) = [] ∧
    endsWithTxtCI "a.txt".data = true ∧
    loadIndex "   ".data = [] ∧
    (endsWithTxtCI "a.txt".data = true ∧
      ∃ line ∈ (splitLines "a.txt, 4, Parking\nbad".data).filter (fun l => !l.isEmpty),
        GoodRow line ("a.txt".data, ⟨"4".data, "Parking".data⟩)) :=
  ⟨C9_loading_degrades.1 _,
   C9_loading_degrades.2.1 (some ["a.txt".data]) (fun _ => "x".data) "a.txt".data "x".data
     (by decide),
   C9_loading_degrades.2.2.1 "   ".data (by decide),
   C9_loading_degrades.2.2.2 "a.txt, 4, Parking\nbad".data "a.txt".data
     ⟨"4".data, "Parking".data⟩ (by decide)⟩

/-! ## Citation rewriting -/

theorem findClose_eq {s : Str} :
    ∀ {content after : Str}, findClose s = some (content, after) →
      s = content ++ ']' :: after ∧ ']' ∉ content := by
  induction s with
  | nil => intro content after h; simp [findClose] at h
  | cons c rest ih =>
    intro content after h
    rw [findClose] at h
    by_cases hc : c = ']'
    · rw [if_pos hc] at h
      simp only [Option.some.injEq, Prod.mk.injEq] at h
      obtain ⟨h1, h2⟩ := h
      subst h1 h2
      subst hc
      simp
    · rw [if_neg hc] at h
      cases hfc : findClose rest with
      | none => rw [hfc] at h; cases h
      | some pr =>
        obtain ⟨content', after'⟩ := pr
        rw [hfc] at h
        simp only [Option.some.injEq, Prod.mk.injEq] at h
        obtain ⟨h1, h2⟩ := h
        obtain ⟨hr, hnc⟩ := ih hfc
        subst h1 h2
        refine ⟨by rw [hr]; rfl, ?_⟩
        simp only [List.mem_cons, not_or]
        exact ⟨fun h => hc h.symm, hnc⟩

theorem findClose_append {f : Str} (post : Str) (hf : ']' ∉ f) :
    findClose (f ++ ']' :: post) = some (f, post) := by
  induction f with
  | nil => simp [findClose]
  | cons c f' ih =>
    have hc : c ≠ ']' := fun h => hf (h ▸ List.mem_cons_self _ _)
    rw [List.cons_append, findClose, if_neg hc,
      ih (fun h => hf (List.mem_cons_of_mem _ h))]

theorem findClose_isSome {s : Str} (h : ']' ∈ s) : (findClose s).isSome = true := by
  induction s with
  | nil => cases h
  | cons c rest ih =>
    rw [findClose]
    by_cases hc : c = ']'
    · rw [if_pos hc]; rfl
    · rw [if_neg hc]
      have hmem : ']' ∈ rest := by
        rcases List.mem_cons.mp h with h' | h'
        · exact absurd h'.symm hc
        · exact h'
      have hs := ih hmem
      cases hfc : findClose rest with
      | none => rw [hfc] at hs; cases hs
      | some pr => obtain ⟨a, b⟩ := pr; rfl

/-- The scan result does not depend on the fuel once the fuel covers the
text length. -/
theorem rewriteFuel_congr (index : List (Str × CiteEntry)) :
    ∀ (fuel1 : Nat) (s : Str) (fuel2 : Nat), s.length ≤ fuel1 → s.length ≤ fuel2 →
      rewriteFuel index fuel1 s = rewriteFuel index fuel2 s := by
  intro fuel1
  induction fuel1 with
  | zero =>
    intro s fuel2 h1 h2
    have hs : s = [] := List.length_eq_zero.mp (Nat.le_zero.mp h1)
    subst hs
    cases fuel2 <;> rfl
  | succ f ih =>
    intro s fuel2 h1 h2
    cases s with
    | nil => cases fuel2 <;> rfl
    | cons c rest =>
      cases fuel2 with
      | zero => simp at h2
      | succ f2 =>
        simp only [List.length_cons, Nat.add_le_add_iff_right] at h1 h2
        simp only [rewriteFuel]
        by_cases hc : c = '['
        · rw [if_pos hc, if_pos hc]
          cases hfc : findClose rest with
          | none => rfl
          | some pr =>
            obtain ⟨content, after⟩ := pr
            dsimp only
            obtain ⟨hr, -⟩ := findClose_eq hfc
            have hlen : after.length ≤ rest.length := by
              rw [hr]
              simp only [List.length_append, List.length_cons]
              omega
            by_cases hv : validContent content = true
            · rw [if_pos hv, if_pos hv]
              congr 1
              exact ih after f2 (by omega) (by omega)
            · rw [if_neg hv, if_neg hv]
              congr 1
              exact ih rest f2 h1 h2
        · rw [if_neg hc, if_neg hc]
          congr 1
          exact ih rest f2 h1 h2

/-- A citation marker somewhere in the text: a bracketed, bracket-free
content that the capture group `([^\]]+\.txt)` accepts. -/
def HasMarker (t : Str) : Prop :=
  ∃ pre f post, t = pre ++ '[' :: (f ++ ']' :: post) ∧ ']' ∉ f ∧ validContent f = true

theorem hasMarker_cons {c : Char} {rest : Str} (h : HasMarker rest) :
    HasMarker (c :: rest) := by
  obtain ⟨pre, f, post, ht, hf, hv⟩ := h
  exact ⟨c :: pre, f, post, by rw [ht]; rfl, hf, hv⟩

theorem rewriteFuel_no_marker (index : List (Str × CiteEntry)) :
    ∀ (fuel : Nat) (s : Str), s.length ≤ fuel → ¬ HasMarker s →
      rewriteFuel index fuel s = s := by
  intro fuel
  induction fuel with
  | zero => intro s h1 h2; rfl
  | succ f ih =>
    intro s h1 h2
    cases s with
    | nil => rfl
    | cons c rest =>
      simp only [List.length_cons, Nat.add_le_add_iff_right] at h1
      have hrest : ¬ HasMarker rest := fun h => h2 (hasMarker_cons h)
      simp only [rewriteFuel]
      by_cases hc : c = '['
      · rw [if_pos hc]
        cases hfc : findClose rest with
        | none => rfl
        | some pr =>
          obtain ⟨content, after⟩ := pr
          dsimp only
          obtain ⟨hr, hnc⟩ := findClose_eq hfc
          by_cases hv : validContent content = true
          · exact absurd ⟨[], content, after, by rw [hr, hc]; rfl, hnc, hv⟩ h2
          · rw [if_neg hv]
            rw [ih rest h1 hrest]
      · rw [if_neg hc]
        rw [ih rest h1 hrest]

/-- Soundness of the decidable marker scan: a decomposed marker makes
`containsMarkerB` fire. -/
theorem hasMarker_containsB {t : Str} (h : HasMarker t) : containsMarkerB t = true := by
  obtain ⟨pre, f, post, ht, hf, hv⟩ := h
  subst ht
  induction pre with
  | nil =>
    simp only [List.nil_append, containsMarkerB, if_pos rfl, findClose_append post hf]
    rw [hv]
    rfl
  | cons c pre' ih =>
    rw [List.cons_append, containsMarkerB]
    by_cases hc : c = '['
    · rw [if_pos hc]
      have hmem : ']' ∈ pre' ++ '[' :: (f ++ ']' :: post) := by
        simp [List.mem_append]
      have hs := findClose_isSome hmem
      cases hfc : findClose (pre' ++ '[' :: (f ++ ']' :: post)) with
      | none => rw [hfc] at hs; cases hs
      | some pr =>
        obtain ⟨content, after⟩ := pr
        rw [ih]
        simp
    · rw [if_neg hc]
      exact ih

theorem not_hasMarker {t : Str} (h : containsMarkerB t = false) : ¬ HasMarker t :=
  fun hm => by rw [hasMarker_containsB hm] at h; cases h

/-- C6 amended: rewriting text containing no citation marker returns it
unchanged.  (The idempotence half of the claim is false: see the
counterexample — a replacement can itself assemble a new marker.) -/
theorem C6_no_marker_unchanged (index : List (Str × CiteEntry)) (t : Str)
    (h : ¬ HasMarker t) : prettyCitations index t = t :=
  rewriteFuel_no_marker index t.length t le_rfl h

theorem C6_witness :
    prettyCitations [("a.txt".data, ⟨"4".data, "Parking".data⟩)]
        "no markers here [only.brackets] end".data
      = "no markers here [only.brackets] end".data :=
  C6_no_marker_unchanged [("a.txt".data, ⟨"4".data, "Parking".data⟩)]
    "no markers here [only.brackets] end".data (not_hasMarker (by decide))

/-- C6 fails as stated: rewriting is not idempotent.  On the input
`"[[a.txt].txt]"` (with an empty index) the first rewrite produces
`"[a.txt]"` — the replacement of the marker `[[a.txt].txt]`'s content
`[a.txt` by its suffix-stripped form `[a` re-assembles a marker with the
trailing `.txt]` — and a second rewrite turns that into `"a"`. -/
theorem C6_counterexample :
    prettyCitations [] (prettyCitations [] "[[a.txt].txt]".data)
      ≠ prettyCitations [] "[[a.txt].txt]".data := by decide

/-- Replacing one marker: scanning passes over a bracket-free prefix,
replaces the marker via `lookupCite`, and continues after it. -/
theorem rewriteFuel_single (index : List (Str × CiteEntry)) :
    ∀ (fuel : Nat) (pre f post : Str),
      (pre ++ '[' :: (f ++ ']' :: post)).length ≤ fuel →
      '[' ∉ pre → ']' ∉ f → validContent f = true →
      rewriteFuel index fuel (pre ++ '[' :: (f ++ ']' :: post))
        = pre ++ lookupCite index f ++ rewriteFuel index post.length post := by
  intro fuel
  induction fuel with
  | zero =>
    intro pre f post h hpre hf hv
    exfalso
    simp only [List.length_append, List.length_cons] at h
    omega
  | succ fl ih =>
    intro pre f post h hpre hf hv
    cases pre with
    | nil =>
      simp only [List.nil_append] at h ⊢
      simp only [rewriteFuel, findClose_append post hf, hv, eq_self_iff_true, if_true]
      congr 1
      apply rewriteFuel_congr
      · simp only [List.length_cons, List.length_append] at h ⊢
        omega
      · exact le_rfl
    | cons c pre' =>
      have hc : c ≠ '[' := fun hcc => hpre (hcc ▸ List.mem_cons_self _ _)
      have hpre' : '[' ∉ pre' := fun hm => hpre (List.mem_cons_of_mem _ hm)
      simp only [List.cons_append, List.length_cons, Nat.add_le_add_iff_right] at h ⊢
      simp only [rewriteFuel, if_neg hc]
      rw [ih pre' f post h hpre' hf hv]

/-- C7: rendering of one citation marker `[f]` (`f` carrying the
document-file suffix), in a text whose preceding part contains no
opening bracket: an index entry with a non-empty article renders as
`Article <article> — <title>` (trimmed), an entry with an empty article
as `Article — <title>` (trimmed), no entry as `f` with its four-character
suffix stripped; with an entirely empty index every marker is rewritten
by suffix-stripping alone. -/
theorem C7_marker_rendering :
    (∀ (index : List (Str × CiteEntry)) (pre f post : Str) (e : CiteEntry),
      '[' ∉ pre → ']' ∉ f → validContent f = true →
      getEntry index f = some e → e.article ≠ [] →
      prettyCitations index (pre ++ '[' :: (f ++ ']' :: post))
        = pre ++ trimStr ("Article ".data ++ e.article ++ " — ".data ++ e.title)
            ++ prettyCitations index post) ∧
    (∀ (index : List (Str × CiteEntry)) (pre f post : Str) (e : CiteEntry),
      '[' ∉ pre → ']' ∉ f → validContent f = true →
      getEntry index f = some e → e.article = [] →
      prettyCitations index (pre ++ '[' :: (f ++ ']' :: post))
        = pre ++ trimStr ("Article — ".data ++ e.title) ++ prettyCitations index post) ∧
    (∀ (index : List (Str × CiteEntry)) (pre f post : Str),
      '[' ∉ pre → ']' ∉ f → validContent f = true →
      getEntry index f = none → getEntry index (trimStr f) = none →
      prettyCitations index (pre ++ '[' :: (f ++ ']' :: post))
        = pre ++ f.take (f.length - 4) ++ prettyCitations index post) ∧
    (∀ (pre f post : Str),
      '[' ∉ pre → ']' ∉ f → validContent f = true →
      prettyCitations [] (pre ++ '[' :: (f ++ ']' :: post))
        = pre ++ f.take (f.length - 4) ++ prettyCitations [] post) := by
  have base : ∀ (index : List (Str × CiteEntry)) (pre f post : Str),
      '[' ∉ pre → ']' ∉ f → validContent f = true →
      prettyCitations index (pre ++ '[' :: (f ++ ']' :: post))
        = pre ++ lookupCite index f ++ prettyCitations index post := by
    intro index pre f post hpre hf hv
    exact rewriteFuel_single index _ pre f post le_rfl hpre hf hv
  have hstrip : ∀ f : Str, validContent f = true → stripTxt f = f.take (f.length - 4) := by
    intro f hv
    have hsfx : ".txt".data.isSuffixOf f = true := by
      unfold validContent at hv
      exact (Bool.and_eq_true ..).mp hv |>.1
    unfold stripTxt
    rw [if_pos ?_]
    unfold endsWithTxtCI
    rw [List.isSuffixOf_iff_suffix] at hsfx ⊢
    obtain ⟨p, hp⟩ := hsfx
    refine ⟨lowerStr p, ?_⟩
    rw [← hp]
    unfold lowerStr
    rw [List.map_append]
    congr 1
  refine ⟨?_, ?_, ?_, ?_⟩
  · intro index pre f post e hpre hf hv he ha
    rw [base index pre f post hpre hf hv]
    unfold lookupCite
    rw [he]
    simp only [renderMeta, if_neg ha, List.append_assoc]
  · intro index pre f post e hpre hf hv he ha
    rw [base index pre f post hpre hf hv]
    unfold lookupCite
    rw [he]
    simp only [renderMeta, if_pos ha]
    rfl
  · intro index pre f post hpre hf hv he1 he2
    rw [base index pre f post hpre hf hv]
    unfold lookupCite
    rw [he1, he2, hstrip f hv]
  · intro pre f post hpre hf hv
    rw [base [] pre f post hpre hf hv]
    unfold lookupCite
    simp only [getEntry, List.find?_nil, Option.map_none', hstrip f hv]

theorem C7_witness :
    prettyCitations [("a.txt".data, ⟨"4".data, "Parking".data⟩)]
        "See [a.txt] for details.".data
      = "See Article 4 — Parking for details.".data := by
  have h := C7_marker_rendering.1 [("a.txt".data, ⟨"4".data, "Parking".data⟩)]
    "See ".data "a.txt".data " for details.".data ⟨"4".data, "Parking".data⟩
    (by decide) (by decide) (by decide) (by decide) (by decide)
  rw [show ("See [a.txt] for details.".data : Str)
      = "See ".data ++ '[' :: ("a.txt".data ++ ']' :: " for details.".data) from rfl]
  rw [h]
  decide

/-! ## Relevance scoring -/

theorem wwAtFrom_zero (t : Str) (prev : Option Char) (c : Char) (rest : Str) :
    wwAtFrom t prev (c :: rest) 0
      = (prevOk prev && t.isPrefixOf (c :: rest) && afterOk t (c :: rest)) := rfl

theorem wwAtFrom_succ (t : Str) (prev : Option Char) (c : Char) (rest : Str) (j : Nat) :
    wwAtFrom t prev (c :: rest) (j + 1) = wwAtFrom t (some c) rest j := by
  cases j <;> rfl

/-- The scanning count of the source equals the positional count of the
spec: the number of indices at which the term occurs flanked by word
boundaries. -/
theorem countWWGo_eq_countP (t : Str) :
    ∀ (s : Str) (prev : Option Char),
      countWWGo t prev s = (List.range s.length).countP (wwAtFrom t prev s) := by
  intro s
  induction s with
  | nil => intro prev; rfl
  | cons c rest ih =>
    intro prev
    simp only [countWWGo]
    rw [List.length_cons, List.range_succ_eq_map, List.countP_cons, List.countP_map]
    rw [ih (some c)]
    have hcomp : (wwAtFrom t prev (c :: rest)) ∘ Nat.succ = wwAtFrom t (some c) rest := by
      funext j
      exact wwAtFrom_succ t prev c rest j
    rw [hcomp, wwAtFrom_zero]
    exact Nat.add_comm _ _

theorem countWW_eq_wholeWordCount (t s : Str) : countWW t s = wholeWordCount t s :=
  countWWGo_eq_countP t s none

theorem foldl_hits (lower : Str) :
    ∀ (l : List Str) (a : Nat),
      l.foldl (fun acc t => if t.length < 3 then acc else acc + countWW t lower) a
        = a + ((l.filter fun t => decide (3 ≤ t.length)).map
                fun t => wholeWordCount t lower).sum := by
  intro l
  induction l with
  | nil => intro a; simp
  | cons t rest ih =>
    intro a
    rw [List.foldl_cons]
    by_cases h : t.length < 3
    · rw [if_pos h, ih]
      have hd : (decide (3 ≤ t.length)) = false := by
        simp only [decide_eq_false_iff_not]
        omega
      simp [List.filter_cons, hd]
    · rw [if_neg h, ih]
      have hd : (decide (3 ≤ t.length)) = true := by
        simp only [decide_eq_true_eq]
        omega
      simp only [List.filter_cons, hd, if_true, List.map_cons, List.sum_cons,
        countWW_eq_wholeWordCount]
      omega

theorem foldl_bonus (lower : Str) :
    ∀ (l : List Str) (a : Nat),
      l.foldl (fun acc b => acc + (if isSubstrB b lower then 1 else 0)) a
        = a + (l.filter fun b => isSubstrB b lower).length := by
  intro l
  induction l with
  | nil => intro a; simp
  | cons b rest ih =>
    intro a
    rw [List.foldl_cons, ih]
    by_cases h : isSubstrB b lower = true
    · simp only [List.filter_cons, h, if_true, List.length_cons]
      omega
    · simp only [List.filter_cons, h, Bool.false_eq_true, if_false]
      omega

/-- The loop-and-accumulator score of the source equals the spec's
formula: four quarters per whole-word hit of each distinct query token
of length at least three, plus one quarter per bonus term occurring as a
substring. -/
theorem scoreDoc4_eq_specScore4 (question text : Str) :
    scoreDoc4 (queryTerms question) text = specScore4 question text := by
  unfold scoreDoc4 specScore4
  dsimp only
  rw [foldl_hits, foldl_bonus]
  omega

theorem mem_insertDesc {x z : Scored} :
    ∀ {l : List Scored}, z ∈ insertDesc x l ↔ z = x ∨ z ∈ l := by
  intro l
  induction l with
  | nil => simp [insertDesc]
  | cons y ys ih =>
    simp only [insertDesc]
    by_cases h : y.score ≤ x.score
    · rw [if_pos h]
      simp [List.mem_cons]
    · rw [if_neg h]
      simp only [List.mem_cons, ih]
      tauto

theorem sorted_insertDesc {x : Scored} :
    ∀ {l : List Scored}, List.Sorted (fun a b => b.score ≤ a.score) l →
      List.Sorted (fun a b => b.score ≤ a.score) (insertDesc x l) := by
  intro l
  induction l with
  | nil => intro _; simp [insertDesc]
  | cons y ys ih =>
    intro h
    rw [List.sorted_cons] at h
    obtain ⟨hy, hys⟩ := h
    simp only [insertDesc]
    by_cases hc : y.score ≤ x.score
    · rw [if_pos hc, List.sorted_cons]
      refine ⟨?_, List.sorted_cons.mpr ⟨hy, hys⟩⟩
      intro b hb
      rcases List.mem_cons.mp hb with rfl | hb'
      · exact hc
      · exact le_trans (hy b hb') hc
    · rw [if_neg hc, List.sorted_cons]
      refine ⟨?_, ih hys⟩
      intro b hb
      rcases mem_insertDesc.mp hb with rfl | hb'
      · exact le_of_lt (lt_of_not_le hc)
      · exact hy b hb'

theorem sorted_sortDesc :
    ∀ l : List Scored, List.Sorted (fun a b => b.score ≤ a.score) (sortDesc l) := by
  intro l
  induction l with
  | nil => simp [sortDesc]
  | cons x xs ih =>
    simp only [sortDesc]
    exact sorted_insertDesc ih

/-- Stability, phrased per score value: inserting an element that
originally precedes the list puts it before exactly the equal-scored
elements, because everything it skips has a strictly larger score. -/
theorem filter_insertDesc (x : Scored) (s : Nat) :
    ∀ l : List Scored,
      (insertDesc x l).filter (fun d => decide (d.score = s))
        = if x.score = s then x :: l.filter (fun d => decide (d.score = s))
          else l.filter (fun d => decide (d.score = s)) := by
  intro l
  induction l with
  | nil =>
    simp only [insertDesc]
    by_cases h : x.score = s
    · simp [List.filter, h]
    · simp [List.filter, h]
  | cons y ys ih =>
    simp only [insertDesc]
    by_cases hc : y.score ≤ x.score
    · rw [if_pos hc]
      by_cases hx : x.score = s
      · simp [List.filter_cons, hx]
      · simp [List.filter_cons, hx]
    · rw [if_neg hc]
      have hxy : x.score < y.score := lt_of_not_le hc
      by_cases hx : x.score = s
      · have hy : ¬ (y.score = s) := by omega
        simp [List.filter_cons, hx, hy, ih]
      · by_cases hy : y.score = s
        · simp [List.filter_cons, hx, hy, ih]
        · simp [List.filter_cons, hx, hy, ih]

theorem filter_sortDesc (s : Nat) :
    ∀ l : List Scored,
      (sortDesc l).filter (fun d => decide (d.score = s))
        = l.filter (fun d => decide (d.score = s)) := by
  intro l
  induction l with
  | nil => rfl
  | cons x xs ih =>
    simp only [sortDesc]
    rw [filter_insertDesc]
    by_cases hx : x.score = s
    · rw [if_pos hx, ih]
      simp [List.filter_cons, hx]
    · rw [if_neg hx, ih]
      simp [List.filter_cons, hx]

/-- C3 amended: each document's score is the spec's formula with the
word-boundary flank class being the regex word characters (alphanumeric
or underscore) rather than alphanumerics alone; the result is sorted by
score descending, and for every score value the equal-scored documents
appear exactly in their original enumeration order (stability). -/
theorem C3_score_formula_and_stable_order :
    ∀ (corpus : List (Str × Str)) (question : Str),
      List.Sorted (fun a b => b.score ≤ a.score) (sliceScored corpus question) ∧
      ∀ s : Nat,
        (sliceScored corpus question).filter (fun d => decide (d.score = s))
          = (corpus.map fun p => (⟨p.1, p.2, specScore4 question p.2⟩ : Scored)).filter
              (fun d => decide (d.score = s)) := by
  intro corpus question
  have hfun : (fun p : Str × Str => (⟨p.1, p.2, scoreDoc4 (queryTerms question) p.2⟩ : Scored))
      = fun p => ⟨p.1, p.2, specScore4 question p.2⟩ := by
    funext p
    rw [scoreDoc4_eq_specScore4]
  constructor
  · exact sorted_sortDesc _
  · intro s
    unfold sliceScored
    dsimp only
    rw [filter_sortDesc, hfun]

/-- C3 fails as stated: in the document `"use_x"` the query token
`"use"` is followed by an underscore.  An underscore is not
alphanumeric, so the claimed boundary rule counts a whole-word hit
(score 1.25, i.e. 5 quarters), but the JavaScript `\b` treats `_` as a
word character, so the scorer finds no hit and scores only the 0.25
substring bonus (1 quarter). -/
theorem C3_counterexample :
    (sliceScored [("d.txt".data, "use_x".data)] "use".data).map Scored.score = [1] ∧
    claimScore4 "use".data "use_x".data = 5 := by decide

end VirtualPlanner
